import Mathlib

/-!
Shallow embedding of the UART command server core of
src/apps/uart_cmd_server/src/main.c.

Modelling conventions:
- Bytes are natural numbers (a C uint8_t); the terminator bytes are 10 and 13.
- The shared mutable state (rx_buf, rx_buf_pos, uart_idle, uart_msgq) is one
  structure, and each C entry point is a function from state to state.
- serial_cb receives the list of bytes currently pending in the UART fifo;
  an empty list models uart_irq_rx_ready returning false, on which the
  callback returns without touching any state (main.c lines 48 to 50).
- uart_timer_expiry_func sets uart_idle and then calls serial_cb directly
  with whatever rx data is pending; after a genuine idle gap nothing is
  pending, since every received byte restarts the timer.
- The Zephyr kernel queue primitives are not part of this repository; they
  are modelled from the documented semantics the spec states: k_msgq_put
  with K_NO_WAIT appends at the tail and silently drops the message when
  the queue is full, k_msgq_get removes from the head in FIFO order.
- The mutex around uart_idle makes each flag access sequence one atomic
  step, which is what a single Lean function application models.
-/

namespace UartCmdServer

/-- Byte values as read from the UART fifo (a C uint8_t, 0 to 255). -/
abbrev Byte := Nat

/-- One fixed-size slot of the message queue: a full copy of the 32-byte
receive buffer at the moment a boundary was declared. -/
abbrev Slot := List Byte

/-- MSG_SIZE (main.c line 16). -/
def MSG_SIZE : Nat := 32

/-- Queue depth of uart_msgq: K_MSGQ_DEFINE(uart_msgq, MSG_SIZE, 10, 4)
(main.c line 19). -/
def QUEUE_DEPTH : Nat := 10

/-- The shared state touched by serial_cb, uart_timer_expiry_func and the
consumer: the receive buffer rx_buf, always MSG_SIZE entries (main.c line
32), the cursor rx_buf_pos (line 33), the idle flag uart_idle (line 24),
and the message queue uart_msgq (line 19), oldest message first. -/
structure St where
  rx_buf : List Byte
  rx_buf_pos : Nat
  uart_idle : Bool
  uart_msgq : List Slot
  deriving DecidableEq

/-- Modelled from the spec: the Zephyr kernel primitive k_msgq_put with
K_NO_WAIT (used at main.c lines 62 and 85) is kernel code outside this
repository; per the spec it is non-blocking and on a full queue the new
message is silently dropped (drop-newest), otherwise appended at the tail. -/
def k_msgq_put (q : List Slot) (m : Slot) : List Slot :=
  if q.length < QUEUE_DEPTH then q ++ [m] else q

/-- Modelled from the spec: the Zephyr kernel primitive k_msgq_get (used at
main.c line 152) is kernel code outside this repository; removal is from
the head in FIFO order, none when the queue is empty (the K_FOREVER
blocking is modelled as popping once a message exists). -/
def k_msgq_get (q : List Slot) : Option (Slot × List Slot) :=
  match q with
  | [] => none
  | m :: rest => some (m, rest)

/-- Lines 54 to 57 of main.c: lock the mutex, read uart_idle into is_idle,
set uart_idle to false, unlock. The mutex makes the read and the clear one
atomic step, modelled as a single function application. -/
def take_and_clear (s : St) : Bool × St :=
  (s.uart_idle, { s with uart_idle := false })

/-- Lines 60 to 65 of main.c, the idle-flush branch of serial_cb: write a
null terminator at rx_buf_pos, push the buffer to uart_msgq with K_NO_WAIT,
reset rx_buf_pos to 0 and memset the buffer to zeros. -/
def idle_flush (s : St) : St :=
  { s with
    uart_msgq := k_msgq_put s.uart_msgq (s.rx_buf.set s.rx_buf_pos 0),
    rx_buf_pos := 0,
    rx_buf := List.replicate MSG_SIZE 0 }

/-- Lines 81 to 89 of main.c, the boundary branch inside the fifo-drain
loop: write a null terminator at rx_buf_pos, push the buffer to uart_msgq
with K_NO_WAIT, reset rx_buf_pos to 0 and memset the buffer to zeros.
Transcribed independently of the idle-flush branch, from its own lines. -/
def terminator_flush (s : St) : St :=
  { s with
    uart_msgq := k_msgq_put s.uart_msgq (s.rx_buf.set s.rx_buf_pos 0),
    rx_buf_pos := 0,
    rx_buf := List.replicate MSG_SIZE 0 }

/-- Lines 69 to 95 of main.c, one iteration of the fifo-drain loop for byte
c: restart the idle timer and clear uart_idle (lines 71 to 75), then either
declare a boundary when c is a newline or carriage return or rx_buf_pos has
reached sizeof(rx_buf) (line 80), store c and advance when rx_buf_pos is
below sizeof(rx_buf) - 1 (lines 90 to 93), or silently drop the byte
(line 94). -/
def rx_byte (s0 : St) (c : Byte) : St :=
  let s := { s0 with uart_idle := false }
  if (c = 10 ∨ c = 13) ∨ MSG_SIZE ≤ s.rx_buf_pos then
    terminator_flush s
  else if s.rx_buf_pos < MSG_SIZE - 1 then
    { s with rx_buf := s.rx_buf.set s.rx_buf_pos c, rx_buf_pos := s.rx_buf_pos + 1 }
  else
    s

/-- serial_cb (main.c lines 40 to 96) invoked with the pending fifo bytes:
when nothing is pending, uart_irq_rx_ready fails and the callback returns
at line 49 without touching any state; otherwise the idle flag is taken and
cleared (lines 52 to 57), a pending idle flush runs (lines 59 to 66), and
the fifo is then drained one byte at a time (lines 69 to 95). -/
def serial_cb (s : St) (fifo : List Byte) : St :=
  if fifo = [] then s
  else
    let p := take_and_clear s
    let s1 := if p.1 then idle_flush p.2 else p.2
    fifo.foldl rx_byte s1

/-- uart_timer_expiry_func (main.c lines 110 to 118): set uart_idle under
the mutex, then call serial_cb directly with whatever rx data is pending at
that moment. After a genuine idle gap the fifo is empty, so that direct
call returns at the rx-ready guard. -/
def uart_timer_expiry (s : St) (fifo : List Byte) : St :=
  serial_cb { s with uart_idle := true } fifo

/-- An event of the receive subsystem: an ISR invocation of serial_cb with
the pending fifo bytes, or an expiry of uart_rx_timer with the rx data that
is pending at expiry time (empty after a genuine idle gap). -/
inductive Ev where
  | rx (fifo : List Byte)
  | timer (fifo : List Byte)

/-- One event step of the shared state. -/
def step (s : St) (e : Ev) : St :=
  match e with
  | Ev.rx fifo => serial_cb s fifo
  | Ev.timer fifo => uart_timer_expiry s fifo

/-- The state at startup: rx_buf and rx_buf_pos are zero-initialised
statics (main.c lines 32 to 33), uart_idle starts false (line 24), the
queue is empty. -/
def init : St :=
  { rx_buf := List.replicate MSG_SIZE 0, rx_buf_pos := 0,
    uart_idle := false, uart_msgq := [] }

/-- The state reached from startup after a trace of events. -/
def run (evs : List Ev) : St := evs.foldl step init

/-- A start state with a clean buffer and clear idle flag over an arbitrary
queue content, as after any completed boundary. -/
def startState (q : List Slot) : St :=
  { rx_buf := List.replicate MSG_SIZE 0, rx_buf_pos := 0,
    uart_idle := false, uart_msgq := q }

/-- The contents of a message slot as the consumer observes them:
print_uart (main.c lines 101 to 108) prints strlen(buf) characters, the
bytes before the first null. -/
def cstr (m : Slot) : List Byte := m.takeWhile (fun b => b ≠ 0)

/-- Iterated k_msgq_get: the first n messages popped from the queue, in
pop order. -/
def popN : Nat → List Slot → List Slot
  | 0, _ => []
  | n + 1, q =>
    match k_msgq_get q with
    | none => []
    | some (m, rest) => m :: popN n rest

/-- The receive-path invariant: the cursor never passes MSG_SIZE - 1 and
the buffer keeps its MSG_SIZE length, so the null-terminator store at the
cursor is always in bounds. -/
def Inv (s : St) : Prop :=
  s.rx_buf_pos ≤ MSG_SIZE - 1 ∧ s.rx_buf.length = MSG_SIZE

/-- Writing the bytes of a list into a buffer at consecutive positions
starting at p, exactly as the stores of main.c line 91 performed in
sequence. -/
def storeList (buf : List Byte) (p : Nat) : List Byte → List Byte
  | [] => buf
  | b :: t => storeList (buf.set p b) (p + 1) t

/-- Pushing a list of messages into a queue that is not over capacity keeps
the queue content and then the oldest pushed messages up to capacity. -/
lemma foldl_put_prefix (ms : List Slot) (q : List Slot)
    (h : q.length ≤ QUEUE_DEPTH) :
    ms.foldl k_msgq_put q = q ++ ms.take (QUEUE_DEPTH - q.length) := by
  induction ms generalizing q with
  | nil => simp
  | cons m t ih =>
    rw [List.foldl_cons]
    by_cases hlt : q.length < QUEUE_DEPTH
    · have hput : k_msgq_put q m = q ++ [m] := if_pos hlt
      rw [hput, ih (q ++ [m]) (by simp; omega)]
      have hk : QUEUE_DEPTH - q.length = (QUEUE_DEPTH - (q ++ [m]).length) + 1 := by
        simp; omega
      rw [hk, List.take_succ_cons]
      simp
    · have hq : q.length = QUEUE_DEPTH := by omega
      have hput : k_msgq_put q m = q := if_neg hlt
      rw [hput, ih q h, hq]
      simp

/-- popN with fuel n returns the first n queue entries in pop order. -/
lemma popN_take (n : Nat) (q : List Slot) : popN n q = q.take n := by
  induction n generalizing q with
  | zero => simp [popN]
  | succ k ih =>
    cases q with
    | nil => simp [popN, k_msgq_get]
    | cons m rest => simp [popN, k_msgq_get, ih]

/-- Both textual copies of the flush re-establish the invariant. -/
lemma inv_terminator_flush (s : St) : Inv (terminator_flush s) := by
  simp [Inv, terminator_flush, MSG_SIZE]

/-- The idle-flush branch re-establishes the invariant. -/
lemma inv_idle_flush (s : St) : Inv (idle_flush s) := by
  simp [Inv, idle_flush, MSG_SIZE]

/-- One fifo-drain iteration preserves the invariant. -/
lemma inv_rx_byte (s : St) (c : Byte) (h : Inv s) : Inv (rx_byte s c) := by
  obtain ⟨h1, h2⟩ := h
  have hm : MSG_SIZE = 32 := rfl
  simp only [rx_byte]
  split
  · exact inv_terminator_flush _
  · split
    next hlt =>
      refine ⟨?_, ?_⟩
      · simp
        omega
      · simp [h2]
    next hge =>
      exact ⟨h1, h2⟩

/-- Draining any fifo content preserves the invariant. -/
lemma inv_foldl_rx (bs : List Byte) (s : St) (h : Inv s) :
    Inv (bs.foldl rx_byte s) := by
  induction bs generalizing s with
  | nil => exact h
  | cons b t ih => exact ih _ (inv_rx_byte s b h)

/-- A full serial_cb invocation preserves the invariant. -/
lemma inv_serial_cb (s : St) (fifo : List Byte) (h : Inv s) :
    Inv (serial_cb s fifo) := by
  simp only [serial_cb]
  split
  · exact h
  · apply inv_foldl_rx
    split
    · exact inv_idle_flush _
    · exact ⟨h.1, h.2⟩

/-- Every event preserves the invariant. -/
lemma inv_step (s : St) (e : Ev) (h : Inv s) : Inv (step s e) := by
  cases e with
  | rx fifo => exact inv_serial_cb s fifo h
  | timer fifo => exact inv_serial_cb _ fifo ⟨h.1, h.2⟩

/-- The invariant holds in every state reachable from startup. -/
lemma inv_run (evs : List Ev) : Inv (run evs) := by
  have general : ∀ (l : List Ev) (s : St), Inv s → Inv (l.foldl step s) := by
    intro l
    induction l with
    | nil => exact fun s h => h
    | cons e t ih => exact fun s h => ih _ (inv_step s e h)
  exact general evs init ⟨by decide, by decide⟩

/-- Setting the element just past a prefix rewrites the head of the rest. -/
lemma set_append_cons (pref : List Byte) (x b : Byte) (rest : List Byte) :
    (pref ++ x :: rest).set pref.length b = pref ++ b :: rest := by
  induction pref with
  | nil => simp
  | cons p tl ih => simp [List.set, ih]

/-- storeList writes over the region immediately after a prefix. -/
lemma storeList_append (bs : List Byte) (pref suf : List Byte)
    (h : bs.length ≤ suf.length) :
    storeList (pref ++ suf) pref.length bs = (pref ++ bs) ++ suf.drop bs.length := by
  induction bs generalizing pref suf with
  | nil => simp [storeList]
  | cons b t ih =>
    cases suf with
    | nil => simp at h
    | cons x rest =>
      have hset : (pref ++ x :: rest).set pref.length b = pref ++ b :: rest :=
        set_append_cons pref x b rest
      show storeList ((pref ++ x :: rest).set pref.length b) (pref.length + 1) t = _
      rw [hset]
      have e1 : pref ++ b :: rest = (pref ++ [b]) ++ rest := by simp
      have e2 : pref.length + 1 = (pref ++ [b]).length := by simp
      rw [e1, e2, ih (pref ++ [b]) rest (by simp at h; omega)]
      simp

/-- Dropping from a run of zeros leaves a shorter run of zeros. -/
lemma drop_replicate_zero (n k : Nat) :
    (List.replicate n (0 : Byte)).drop k = List.replicate (n - k) 0 := by
  induction n generalizing k with
  | zero => simp
  | succ m ih =>
    cases k with
    | zero => simp
    | succ j => simp [List.replicate_succ, ih]

/-- Writing a line into the cleared buffer from position 0 leaves the line
followed by the remaining zero padding. -/
lemma storeList_replicate (bs : List Byte) (h : bs.length ≤ MSG_SIZE) :
    storeList (List.replicate MSG_SIZE 0) 0 bs
      = bs ++ List.replicate (MSG_SIZE - bs.length) 0 := by
  have h2 := storeList_append bs [] (List.replicate MSG_SIZE 0) (by simpa using h)
  simpa [drop_replicate_zero] using h2

/-- Writing the null terminator into the zero padding changes nothing. -/
lemma set_pad_zero (pl : List Byte) (k : Nat) :
    (pl ++ List.replicate (k + 1) 0).set pl.length 0
      = pl ++ List.replicate (k + 1) 0 := by
  rw [List.replicate_succ]
  exact set_append_cons pl 0 0 (List.replicate k 0)

/-- The consumer-visible contents of a line of nonzero bytes padded with
zeros is the line itself. -/
lemma cstr_append_replicate (pl : List Byte) (k : Nat) (h : ∀ b ∈ pl, b ≠ 0) :
    cstr (pl ++ List.replicate k 0) = pl := by
  induction pl with
  | nil =>
    cases k with
    | zero => rfl
    | succ j => simp [cstr, List.replicate_succ]
  | cons a t ih =>
    have ha : a ≠ 0 := h a (List.mem_cons_self a t)
    simp [cstr, ha]
    simpa [cstr] using ih (fun b hb => h b (List.mem_cons_of_mem a hb))

/-- A terminator byte always declares a boundary, whatever the cursor. -/
lemma rx_byte_terminator (s : St) (c : Byte) (hc : c = 10 ∨ c = 13) :
    rx_byte s c = terminator_flush { s with uart_idle := false } := by
  rcases hc with h | h <;> simp [rx_byte, h]

/-- Draining terminator-free bytes that fit strictly below the capacity
boundary stores them in order at the cursor and pushes nothing. -/
lemma foldl_rx_byte_store (bs : List Byte) (s : St)
    (hterm : ∀ b ∈ bs, b ≠ 10 ∧ b ≠ 13)
    (hfit : s.rx_buf_pos + bs.length ≤ MSG_SIZE - 1) :
    bs.foldl rx_byte s =
      { rx_buf := storeList s.rx_buf s.rx_buf_pos bs,
        rx_buf_pos := s.rx_buf_pos + bs.length,
        uart_idle := if bs.isEmpty then s.uart_idle else false,
        uart_msgq := s.uart_msgq } := by
  induction bs generalizing s with
  | nil => rfl
  | cons b t ih =>
    have hm : MSG_SIZE = 32 := rfl
    obtain ⟨hb10, hb13⟩ := hterm b (List.mem_cons_self b t)
    have hlen : s.rx_buf_pos + t.length + 1 ≤ MSG_SIZE - 1 := by
      simp [List.length_cons] at hfit
      omega
    have hcond : ¬ ((b = 10 ∨ b = 13) ∨ MSG_SIZE ≤ s.rx_buf_pos) := by
      push_neg
      exact ⟨⟨hb10, hb13⟩, by omega⟩
    have hlt : s.rx_buf_pos < MSG_SIZE - 1 := by omega
    have hstep : rx_byte s b =
        { rx_buf := s.rx_buf.set s.rx_buf_pos b,
          rx_buf_pos := s.rx_buf_pos + 1,
          uart_idle := false, uart_msgq := s.uart_msgq } := by
      simp [rx_byte, hcond, hlt]
    rw [List.foldl_cons, hstep,
        ih _ (fun x hx => hterm x (List.mem_cons_of_mem b hx)) (by simp; omega)]
    simp [storeList, St.mk.injEq]
    omega

/-- Terminator-free bytes arriving with the cursor already at MSG_SIZE - 1
are all silently dropped; only the idle flag is cleared. -/
lemma foldl_rx_byte_drop (bs : List Byte) (s : St)
    (hterm : ∀ b ∈ bs, b ≠ 10 ∧ b ≠ 13)
    (hpos : s.rx_buf_pos = MSG_SIZE - 1) :
    bs.foldl rx_byte s =
      { rx_buf := s.rx_buf, rx_buf_pos := s.rx_buf_pos,
        uart_idle := if bs.isEmpty then s.uart_idle else false,
        uart_msgq := s.uart_msgq } := by
  induction bs generalizing s with
  | nil => rfl
  | cons b t ih =>
    have hm : MSG_SIZE = 32 := rfl
    obtain ⟨hb10, hb13⟩ := hterm b (List.mem_cons_self b t)
    have hcond : ¬ ((b = 10 ∨ b = 13) ∨ MSG_SIZE ≤ s.rx_buf_pos) := by
      push_neg
      exact ⟨⟨hb10, hb13⟩, by omega⟩
    have hlt : ¬ s.rx_buf_pos < MSG_SIZE - 1 := by omega
    have hstep : rx_byte s b =
        { rx_buf := s.rx_buf, rx_buf_pos := s.rx_buf_pos,
          uart_idle := false, uart_msgq := s.uart_msgq } := by
      simp [rx_byte, hcond, hlt]
    rw [List.foldl_cons, hstep,
        ih { rx_buf := s.rx_buf, rx_buf_pos := s.rx_buf_pos,
             uart_idle := false, uart_msgq := s.uart_msgq }
          (fun x hx => hterm x (List.mem_cons_of_mem b hx)) hpos]
    simp

/-- C5: take_and_clear returns the current value of uart_idle, leaves the
flag false and every other component untouched, and a second take_and_clear
with no intervening expiry returns false, so a single idle-expiry event is
consumed at most once. The critical section of main.c lines 54 to 57 is
modelled by the operation being one atomic step. -/
theorem c5_take_and_clear_contract (s : St) :
    (take_and_clear s).1 = s.uart_idle ∧
    (take_and_clear s).2.uart_idle = false ∧
    (take_and_clear (take_and_clear s).2).1 = false ∧
    (take_and_clear s).2.rx_buf = s.rx_buf ∧
    (take_and_clear s).2.rx_buf_pos = s.rx_buf_pos ∧
    (take_and_clear s).2.uart_msgq = s.uart_msgq :=
  ⟨rfl, rfl, rfl, rfl, rfl, rfl⟩

/-- C8: the idle-flush branch and the terminator-flush branch of serial_cb
are extensionally equal transformations of the shared state, and both act
by null-terminating at the cursor, pushing the buffer non-blockingly,
resetting the cursor to 0 and clearing the buffer. -/
theorem c8_flush_paths_identical (s : St) :
    idle_flush s = terminator_flush s ∧
    idle_flush s =
      { rx_buf := List.replicate MSG_SIZE 0, rx_buf_pos := 0,
        uart_idle := s.uart_idle,
        uart_msgq := k_msgq_put s.uart_msgq (s.rx_buf.set s.rx_buf_pos 0) } :=
  ⟨rfl, rfl⟩

/-- C6: the message-queue push is non-blocking drop-newest: a push onto a
queue already holding QUEUE_DEPTH messages returns the queue unchanged and
discards the incoming message, and pushing any sequence of messages into
the empty queue without consumption keeps exactly the oldest QUEUE_DEPTH
of them, so the eleventh of eleven pushes is silently dropped. -/
theorem c6_drop_newest_overflow :
    (∀ (q : List Slot) (m : Slot), q.length = QUEUE_DEPTH → k_msgq_put q m = q) ∧
    (∀ ms : List Slot, ms.foldl k_msgq_put [] = ms.take QUEUE_DEPTH) := by
  constructor
  · intro q m h
    simp [k_msgq_put, h]
  · intro ms
    simpa using foldl_put_prefix ms [] (by simp)

/-- C6 witness: a full queue of ten empty slots drops an incoming message,
and pushing eleven one-byte messages into the empty queue keeps exactly the
oldest ten. -/
theorem c6_drop_newest_overflow_witness :
    k_msgq_put (List.replicate 10 ([] : Slot)) [65] = List.replicate 10 ([] : Slot) ∧
    ([[0], [1], [2], [3], [4], [5], [6], [7], [8], [9], [10]] : List Slot).foldl
        k_msgq_put []
      = ([[0], [1], [2], [3], [4], [5], [6], [7], [8], [9], [10]] : List Slot).take
          QUEUE_DEPTH :=
  ⟨c6_drop_newest_overflow.1 (List.replicate 10 []) [65] (by decide),
   c6_drop_newest_overflow.2 _⟩

/-- C7: the queue is FIFO with no reordering: after two successful pushes of
A then B, draining the queue returns the earlier content, then A, then B,
so A at pop position q.length and B right after it; the blocking pop
returns A strictly before B. -/
theorem c7_fifo_order (q : List Slot) (A B : Slot)
    (h : q.length + 2 ≤ QUEUE_DEPTH) :
    popN (q.length + 2) (k_msgq_put (k_msgq_put q A) B) = q ++ [A, B] ∧
    (q ++ [A, B]).drop q.length = [A, B] := by
  have h1 : k_msgq_put q A = q ++ [A] := if_pos (by omega)
  have h2 : k_msgq_put (q ++ [A]) B = q ++ [A] ++ [B] := if_pos (by simp; omega)
  constructor
  · rw [h1, h2, popN_take]
    have e : q ++ [A] ++ [B] = q ++ [A, B] := by simp
    have hl : (q ++ [A, B]).length = q.length + 2 := by simp
    rw [e, ← hl, List.take_length]
  · simp

/-- C7 witness: pushing the message containing byte 49 and then the message
containing byte 50 into the empty queue and draining returns them in that
order. -/
theorem c7_fifo_order_witness :
    popN (([] : List Slot).length + 2) (k_msgq_put (k_msgq_put [] [49]) [50])
        = [] ++ [[49], [50]] ∧
    (([] : List Slot) ++ [[49], [50]]).drop ([] : List Slot).length = [[49], [50]] :=
  c7_fifo_order [] [49] [50] (by decide)

/-- C9: in every state reachable from startup by any interleaving of byte
arrivals and idle expirations, rx_buf_pos stays at most MSG_SIZE - 1 and
the buffer keeps its MSG_SIZE length, so the null-terminator store at
rx_buf_pos performed at every boundary is within bounds. -/
theorem c9_cursor_invariant (evs : List Ev) :
    (run evs).rx_buf_pos ≤ MSG_SIZE - 1 ∧ (run evs).rx_buf.length = MSG_SIZE :=
  inv_run evs

/-- C10: a non-terminator byte arriving with the cursor at MSG_SIZE - 1 is
silently discarded, leaving buffer, cursor and queue unchanged, and the
capacity test MSG_SIZE less-or-equal rx_buf_pos of main.c line 80 is false
in every reachable state, so a full buffer alone never triggers a
boundary. -/
theorem c10_full_buffer_silent_drop :
    (∀ (s : St) (c : Byte), c ≠ 10 → c ≠ 13 → s.rx_buf_pos = MSG_SIZE - 1 →
      (rx_byte s c).rx_buf = s.rx_buf ∧
      (rx_byte s c).rx_buf_pos = s.rx_buf_pos ∧
      (rx_byte s c).uart_msgq = s.uart_msgq) ∧
    (∀ evs : List Ev, ¬ MSG_SIZE ≤ (run evs).rx_buf_pos) := by
  have hm : MSG_SIZE = 32 := rfl
  constructor
  · intro s c h10 h13 hpos
    have hcond : ¬ ((c = 10 ∨ c = 13) ∨ MSG_SIZE ≤ s.rx_buf_pos) := by
      push_neg
      exact ⟨⟨h10, h13⟩, by omega⟩
    have h2 : ¬ s.rx_buf_pos < MSG_SIZE - 1 := by omega
    simp [rx_byte, hcond, h2]
  · intro evs hge
    have h := (inv_run evs).1
    omega

set_option maxRecDepth 10000 in
/-- C10 witness: after 31 stored bytes the cursor sits at 31; byte 98 is
then dropped with buffer, cursor and queue untouched, and the empty trace
has the capacity test false. -/
theorem c10_full_buffer_silent_drop_witness :
    (rx_byte (run [Ev.rx (List.replicate 31 97)]) 98).rx_buf
        = (run [Ev.rx (List.replicate 31 97)]).rx_buf ∧
    (rx_byte (run [Ev.rx (List.replicate 31 97)]) 98).rx_buf_pos
        = (run [Ev.rx (List.replicate 31 97)]).rx_buf_pos ∧
    (rx_byte (run [Ev.rx (List.replicate 31 97)]) 98).uart_msgq
        = (run [Ev.rx (List.replicate 31 97)]).uart_msgq ∧
    ¬ MSG_SIZE ≤ (run []).rx_buf_pos :=
  ⟨(c10_full_buffer_silent_drop.1 (run [Ev.rx (List.replicate 31 97)]) 98
      (by decide) (by decide) (by decide)).1,
   (c10_full_buffer_silent_drop.1 (run [Ev.rx (List.replicate 31 97)]) 98
      (by decide) (by decide) (by decide)).2.1,
   (c10_full_buffer_silent_drop.1 (run [Ev.rx (List.replicate 31 97)]) 98
      (by decide) (by decide) (by decide)).2.2,
   c10_full_buffer_silent_drop.2 []⟩

/-- With the idle flag clear, a nonempty serial_cb invocation from a clean
buffer is just the fifo drain. -/
lemma serial_cb_clean (q : List Slot) (fifo : List Byte) (hf : ¬ fifo = []) :
    serial_cb (startState q) fifo =
      fifo.foldl rx_byte
        { rx_buf := List.replicate MSG_SIZE 0, rx_buf_pos := 0,
          uart_idle := false, uart_msgq := q } := by
  rw [serial_cb, if_neg hf]
  simp [take_and_clear, startState]

/-- C4: from a clean buffer with the idle flag clear and the queue not
full, a terminator-free line of at most MSG_SIZE - 2 nonzero bytes followed
by a newline or carriage return yields, within the processing of those
bytes themselves (no idle event involved), exactly one message appended to
the queue whose consumer-visible contents are the line with the terminator
stripped; the buffer and cursor are reset. -/
theorem c4_terminator_immediate_delivery (pl : List Byte) (t : Byte)
    (q : List Slot)
    (ht : t = 10 ∨ t = 13)
    (hpl : ∀ b ∈ pl, b ≠ 10 ∧ b ≠ 13 ∧ b ≠ 0)
    (hlen : pl.length + 1 ≤ MSG_SIZE - 1)
    (hq : q.length < QUEUE_DEPTH) :
    ∃ slot : Slot,
      serial_cb (startState q) (pl ++ [t]) =
        { rx_buf := List.replicate MSG_SIZE 0, rx_buf_pos := 0,
          uart_idle := false, uart_msgq := q ++ [slot] } ∧
      cstr slot = pl := by
  have hm : MSG_SIZE = 32 := rfl
  have hterm2 : ∀ b ∈ pl, b ≠ 10 ∧ b ≠ 13 :=
    fun b hb => ⟨(hpl b hb).1, (hpl b hb).2.1⟩
  have hstore : storeList (List.replicate MSG_SIZE 0) 0 pl
      = pl ++ List.replicate (MSG_SIZE - pl.length) 0 :=
    storeList_replicate pl (by omega)
  have hpad : MSG_SIZE - pl.length = (MSG_SIZE - pl.length - 1) + 1 := by omega
  have hset : (pl ++ List.replicate (MSG_SIZE - pl.length) 0).set pl.length 0
      = pl ++ List.replicate (MSG_SIZE - pl.length) 0 := by
    rw [hpad]
    exact set_pad_zero pl _
  refine ⟨pl ++ List.replicate (MSG_SIZE - pl.length) 0, ?_, ?_⟩
  · have hne : ¬ (pl ++ [t] = []) := by simp
    rw [serial_cb_clean q _ hne]
    rw [List.foldl_append,
        foldl_rx_byte_store pl
          { rx_buf := List.replicate MSG_SIZE 0, rx_buf_pos := 0,
            uart_idle := false, uart_msgq := q }
          hterm2 (by simp; omega)]
    rw [List.foldl_cons, List.foldl_nil, rx_byte_terminator _ t ht]
    simp [terminator_flush, k_msgq_put, hq, hstore, hset]
  · exact cstr_append_replicate pl _ (fun b hb => (hpl b hb).2.2)

/-- C4 witness: the three bytes h, i, exclamation followed by newline from
the startup state deliver exactly the message with those three bytes. -/
theorem c4_terminator_immediate_delivery_witness :
    ∃ slot : Slot,
      serial_cb (startState []) ([104, 105, 33] ++ [10]) =
        { rx_buf := List.replicate MSG_SIZE 0, rx_buf_pos := 0,
          uart_idle := false, uart_msgq := [] ++ [slot] } ∧
      cstr slot = [104, 105, 33] :=
  c4_terminator_immediate_delivery [104, 105, 33] 10 []
    (Or.inl rfl) (by decide) (by decide) (by decide)

set_option maxRecDepth 10000 in
/-- C2 counterexample: thirty-two terminator-free bytes 97 arriving in one
burst deliver no message at all (the queue stays empty), the cursor stays
at MSG_SIZE - 1, and the buffer still holds the first thirty-one bytes, so
no boundary was declared at the write request at cursor MSG_SIZE - 1 and
assembly did not restart with the next byte. -/
theorem c2_capacity_counterexample :
    (run [Ev.rx (List.replicate MSG_SIZE 97)]).uart_msgq = [] ∧
    (run [Ev.rx (List.replicate MSG_SIZE 97)]).rx_buf_pos = MSG_SIZE - 1 ∧
    (run [Ev.rx (List.replicate MSG_SIZE 97)]).rx_buf
      = List.replicate (MSG_SIZE - 1) 97 ++ [0] := by
  decide

/-- C2 amended: for a terminator-free byte sequence of length at least
MSG_SIZE - 1 arriving from startup, the first MSG_SIZE - 1 bytes are stored
in the buffer and every later byte is silently dropped; no message is
delivered at the capacity boundary and assembly does not restart — the
line waits for a terminator or an idle flush. -/
theorem c2_amended_capacity_drop (bs : List Byte)
    (hterm : ∀ b ∈ bs, b ≠ 10 ∧ b ≠ 13)
    (hlen : MSG_SIZE - 1 ≤ bs.length) :
    (run [Ev.rx bs]).uart_msgq = [] ∧
    (run [Ev.rx bs]).rx_buf_pos = MSG_SIZE - 1 ∧
    (run [Ev.rx bs]).rx_buf = bs.take (MSG_SIZE - 1) ++ [0] := by
  have hm : MSG_SIZE = 32 := rfl
  have hne : ¬ (bs = []) := by
    intro h
    rw [h] at hlen
    simp at hlen
    omega
  have htake : (bs.take (MSG_SIZE - 1)).length = MSG_SIZE - 1 := by
    simp [List.length_take]
    omega
  have hsplit : bs.take (MSG_SIZE - 1) ++ bs.drop (MSG_SIZE - 1) = bs :=
    List.take_append_drop (MSG_SIZE - 1) bs
  have hstore : storeList (List.replicate MSG_SIZE 0) 0 (bs.take (MSG_SIZE - 1))
      = bs.take (MSG_SIZE - 1) ++ [0] := by
    rw [storeList_replicate _ (by omega), htake]
    have hone : List.replicate (MSG_SIZE - (MSG_SIZE - 1)) 0 = [0] := by decide
    rw [hone]
  have hrun : run [Ev.rx bs] = serial_cb (startState []) bs := rfl
  rw [hrun, serial_cb_clean [] bs hne]
  have hfold : bs.foldl rx_byte
      { rx_buf := List.replicate MSG_SIZE 0, rx_buf_pos := 0,
        uart_idle := false, uart_msgq := [] }
      = (bs.drop (MSG_SIZE - 1)).foldl rx_byte
          ((bs.take (MSG_SIZE - 1)).foldl rx_byte
            { rx_buf := List.replicate MSG_SIZE 0, rx_buf_pos := 0,
              uart_idle := false, uart_msgq := [] }) := by
    rw [← List.foldl_append, hsplit]
  rw [hfold,
      foldl_rx_byte_store (bs.take (MSG_SIZE - 1))
        { rx_buf := List.replicate MSG_SIZE 0, rx_buf_pos := 0,
          uart_idle := false, uart_msgq := [] }
        (fun b hb => hterm b (List.take_subset _ _ hb)) (by simp),
      foldl_rx_byte_drop (bs.drop (MSG_SIZE - 1)) _
        (fun b hb => hterm b (List.drop_subset _ _ hb)) (by simp [htake])]
  simp [hstore, htake]

set_option maxRecDepth 10000 in
/-- C2 amended witness: forty bytes 97 with no terminator leave the first
thirty-one in the buffer, drop the other nine, and deliver nothing. -/
theorem c2_amended_capacity_drop_witness :
    (run [Ev.rx (List.replicate 40 97)]).uart_msgq = [] ∧
    (run [Ev.rx (List.replicate 40 97)]).rx_buf_pos = MSG_SIZE - 1 ∧
    (run [Ev.rx (List.replicate 40 97)]).rx_buf
      = (List.replicate 40 97).take (MSG_SIZE - 1) ++ [0] :=
  c2_amended_capacity_drop (List.replicate 40 97) (by decide) (by decide)

set_option maxRecDepth 10000 in
/-- C1 evaluated at the failing input: after the terminator-free bytes
x, y, z an idle-timer expiry with no rx data pending delivers nothing —
uart_timer_expiry_func only sets uart_idle, because its direct call of
serial_cb returns at the uart_irq_rx_ready guard — the line stays in the
buffer, and it is only the next byte arrival that flushes it. -/
theorem c1_idle_gap_no_delivery :
    (run [Ev.rx [120, 121, 122], Ev.timer []]).uart_msgq = [] ∧
    (run [Ev.rx [120, 121, 122], Ev.timer []]).rx_buf_pos = 3 ∧
    (run [Ev.rx [120, 121, 122], Ev.timer []]).uart_idle = true ∧
    (run [Ev.rx [120, 121, 122], Ev.timer [], Ev.rx [119]]).uart_msgq
      = [[120, 121, 122] ++ List.replicate 29 0] := by
  decide

set_option maxRecDepth 10000 in
/-- C3 evaluated at the failing input: an idle-timer expiry with the buffer
empty pushes nothing by itself (and neither do repeated expirations), but
the pending idle flag is consumed by the next byte arrival with the cursor
at 0 and then — there being no cursor guard at main.c line 59 — an empty
message (a slot of thirty-two zero bytes, consumer-visible contents empty)
is pushed to the queue, so empty-buffer expirations are not a no-op. -/
theorem c3_empty_buffer_idle_pushes_empty :
    (run [Ev.timer []]).uart_msgq = [] ∧
    (run [Ev.timer [], Ev.timer []]).uart_msgq = [] ∧
    (run [Ev.timer [], Ev.rx [120]]).uart_msgq = [List.replicate MSG_SIZE 0] ∧
    cstr (List.replicate MSG_SIZE 0) = [] := by
  decide

end UartCmdServer
